import Mathlib

/-!
Shallow embedding of the acronym-bot (`src/app.py`) storage layer, formatter,
command router and opaque-token encoding, together with proofs of the
specification's claims.  Python strings are modelled as `List Char`; SQLite's
`acronyms` table is modelled as a list of records kept in ascending-id order
(the table is only ever queried with `ORDER BY id ASC`), with the
`AUTOINCREMENT` id generator modelled by a `nextId` counter.
-/

namespace AcronymBot

/-- ASCII whitespace as stripped by Python's `str.strip()` (space, tab,
newline, carriage return, vertical tab, form feed); the model restricts
Python's Unicode whitespace set to ASCII. -/
def isPySpace (c : Char) : Bool :=
  c == ' ' || c == '\t' || c == '\n' || c == '\r' || c == '\x0b' || c == '\x0c'

/-- Python `str.strip()`: drop leading and trailing whitespace. -/
def pyStrip (s : List Char) : List Char :=
  ((s.dropWhile isPySpace).reverse.dropWhile isPySpace).reverse

/-- ASCII uppercase of one character, as Python `str.upper()` acts on ASCII
(codes 97-122 map down by 32, everything else is unchanged). -/
def upChar (c : Char) : Char :=
  if 97 ≤ c.toNat ∧ c.toNat ≤ 122 then Char.ofNat (c.toNat - 32) else c

/-- ASCII lowercase of one character, as Python `str.lower()` acts on ASCII
(codes 65-90 map up by 32, everything else is unchanged). -/
def lowChar (c : Char) : Char :=
  if 65 ≤ c.toNat ∧ c.toNat ≤ 90 then Char.ofNat (c.toNat + 32) else c

/-- Python `str.upper()`. -/
def pyUpper (s : List Char) : List Char := s.map upChar

/-- Python `str.lower()`. -/
def pyLower (s : List Char) : List Char := s.map lowChar

/-- The normalization `term.strip().upper()` applied to every term by
`add_acronym`, `get_acronyms`, `get_acronym_ids_and_expansions` and
`format_defs` in `src/app.py`. -/
def normTerm (s : List Char) : List Char := pyUpper (pyStrip s)

/-- One row of the `acronyms` table (`src/app.py` lines 16-23). -/
structure AcronymRecord where
  id : Nat
  term : List Char
  expansion : List Char
  created_at : Nat
deriving DecidableEq

/-- The persistent store: the `acronyms` table rows in ascending-id order,
plus the `AUTOINCREMENT` counter that yields the next fresh id. -/
structure Store where
  rows : List AcronymRecord
  nextId : Nat
deriving DecidableEq

/-- Well-formedness of a store state: rows are in strictly ascending id order
(so a plain filter realizes `ORDER BY id ASC`), every id is below the
`AUTOINCREMENT` counter, and every row satisfies the data-model invariants
(term uppercase-trimmed and non-empty, expansion trimmed and non-empty). -/
def Store.wf (s : Store) : Prop :=
  s.rows.Pairwise (fun a b => a.id < b.id) ∧
  (∀ r ∈ s.rows, r.id < s.nextId) ∧
  (∀ r ∈ s.rows, r.term = normTerm r.term ∧ r.term ≠ [] ∧
    r.expansion = pyStrip r.expansion ∧ r.expansion ≠ [])

/-- Embedding of `add_acronym` (`src/app.py` lines 28-40): normalize, skip
silently when either field is blank after trimming, otherwise insert one row
with a fresh id and the current timestamp. -/
def add_acronym (term expansion : List Char) (now : Nat) (s : Store) : Store :=
  let term_clean := normTerm term
  let expansion_clean := pyStrip expansion
  if term_clean = [] ∨ expansion_clean = [] then s
  else
    { rows := s.rows ++ [⟨s.nextId, term_clean, expansion_clean, now⟩],
      nextId := s.nextId + 1 }

/-- Embedding of `get_acronyms` (`src/app.py` lines 42-52):
`SELECT expansion FROM acronyms WHERE term = ? ORDER BY id ASC` after
normalizing the queried term. -/
def get_acronyms (term : List Char) (s : Store) : List (List Char) :=
  (s.rows.filter (fun r => r.term = normTerm term)).map (fun r => r.expansion)

/-- Embedding of `get_acronym_ids_and_expansions` (`src/app.py` lines 65-74):
`SELECT id, expansion FROM acronyms WHERE term = ? ORDER BY id ASC`. -/
def get_acronym_ids_and_expansions (term : List Char) (s : Store) :
    List (Nat × List Char) :=
  (s.rows.filter (fun r => r.term = normTerm term)).map (fun r => (r.id, r.expansion))

/-- Embedding of `delete_acronym_by_id` (`src/app.py` lines 76-81):
`DELETE FROM acronyms WHERE id = ?`. -/
def delete_acronym_by_id (aid : Nat) (s : Store) : Store :=
  { s with rows := s.rows.filter (fun r => ¬ r.id = aid) }

/-- Embedding of the storage effect of `handle_edit_view` (`src/app.py` lines
279-284): strip the submitted replacement, do nothing when it is blank,
otherwise `UPDATE acronyms SET expansion = ? WHERE id = ?`. -/
def update_expansion (aid : Nat) (newExpansion : List Char) (s : Store) : Store :=
  let new_exp := pyStrip newExpansion
  if new_exp = [] then s
  else
    { s with rows := s.rows.map (fun r =>
        if r.id = aid then { r with expansion := new_exp } else r) }

/-- Embedding of `SELECT expansion FROM acronyms WHERE id = ?` followed by
`fetchone()` as used by `handle_edit_select` and `handle_delete_select`
(`src/app.py` lines 236-239 and 316-319): the first matching row's expansion,
or `none` when no row matches. -/
def fetch_expansion (aid : Nat) (s : Store) : Option (List Char) :=
  (s.rows.find? (fun r => r.id = aid)).map (fun r => r.expansion)

/-- Decimal rendering of a natural number, as Python `f"{acronym_id}"`. -/
def digitChar (d : Nat) : Char := Char.ofNat (48 + d)

/-- Decimal digit string of a natural number, fuelled so that it reduces by
computation; `natToChars` supplies sufficient fuel. -/
def natToCharsAux (fuel n : Nat) : List Char :=
  match fuel with
  | 0 => []
  | fuel + 1 =>
    if n < 10 then [digitChar n]
    else natToCharsAux fuel (n / 10) ++ [digitChar (n % 10)]

/-- Decimal digit string of a natural number. -/
def natToChars (n : Nat) : List Char := natToCharsAux (n + 1) n

/-- Parse a decimal digit string, as Python `int(aid)` on the digits the
encoder produced. -/
def charsToNat (l : List Char) : Nat :=
  l.foldl (fun a c => a * 10 + (c.toNat - 48)) 0

/-- The opaque token `f"{acronym_id}|{term}"` attached to the delete/edit
buttons (`src/app.py` lines 160, 203, 248, 328). -/
def encodeToken (aid : Nat) (term : List Char) : List Char :=
  natToChars aid ++ '|' :: term

/-- Python `value.split("|", 1)` destructured into two parts: split at the
first `'|'`, `none` when no delimiter occurs (where the Python unpacking
would raise). Used by `handle_edit_select`, `handle_edit_view`,
`handle_delete_select` and `handle_delete_confirm`. -/
def splitPipe1 : List Char → Option (List Char × List Char)
  | [] => none
  | c :: cs =>
    if c = '|' then some ([], cs)
    else (splitPipe1 cs).map (fun p => (c :: p.1, p.2))

/-- Python `s.split(None, maxsplit)`: split on runs of whitespace, at most
`maxs` splits; once the budget is exhausted the remainder (leading whitespace
removed) is kept whole. -/
def pySplitNone (maxs : Nat) (s : List Char) : List (List Char) :=
  let s1 := s.dropWhile isPySpace
  if s1 = [] then []
  else
    match maxs with
    | 0 => [s1]
    | m + 1 =>
      s1.takeWhile (fun c => ¬ isPySpace c) ::
        pySplitNone m (s1.dropWhile (fun c => ¬ isPySpace c))

/-- Python `"\n".join`. -/
def joinLines (ls : List (List Char)) : List Char := List.intercalate ['\n'] ls

/-- The numbered lines built by the `enumerate(expansions, 1)` loop of
`format_defs` (`src/app.py` lines 60-61). -/
def numberedLines (i : Nat) : List (List Char) → List (List Char)
  | [] => []
  | e :: es => (natToChars i ++ ". ".toList ++ e) :: numberedLines (i + 1) es

/-- Embedding of `format_defs` (`src/app.py` lines 54-62). -/
def format_defs (term : List Char) (expansions : List (List Char)) : List Char :=
  let term_clean := normTerm term
  if expansions = [] then
    "Nothing for *".toList ++ term_clean ++ "* yet. Try `/wtf add` to submit one.".toList
  else
    joinLines (("*".toList ++ term_clean ++ "* has ".toList ++
      natToChars expansions.length ++ " meaning(s):".toList) :: numberedLines 1 expansions)

/-- Visibility of a reply: `response_type="ephemeral"` or `"in_channel"`. -/
inductive ResponseType where
  | ephemeral
  | inChannel
deriving DecidableEq

/-- Outcome of one `/wtf` slash-command invocation, one constructor per
branch of `handle_acronym` (`src/app.py` lines 88-226). Constructors that
send a reply carry its visibility as passed to `respond`. -/
inductive RouteAction where
  | usage (rtype : ResponseType)
  | openAddModal (prefillTerm : List Char)
  | deleteUsage (rtype : ResponseType)
  | deleteNotFound (termUpper : List Char) (rtype : ResponseType)
  | deleteSelectList (term : List Char) (rows : List (Nat × List Char)) (rtype : ResponseType)
  | editUsage (rtype : ResponseType)
  | editNotFound (termUpper : List Char) (rtype : ResponseType)
  | editSelectList (term : List Char) (rows : List (Nat × List Char)) (rtype : ResponseType)
  | lookupReply (message : List Char) (rtype : ResponseType)
deriving DecidableEq

/-- Embedding of the `/wtf` command router `handle_acronym` (`src/app.py`
lines 88-226). The router only reads the store; it performs no write. The
input is `command.get("text")`, which may be absent (`none`). -/
def handle_acronym (rawText : Option (List Char)) (s : Store) : RouteAction :=
  let text := pyStrip (rawText.getD [])
  if text = [] then .usage .ephemeral
  else if "add".toList <+: pyLower text then
    let parts := pySplitNone 2 text
    let prefill := if 1 < parts.length then pyUpper (parts.getD 1 []) else []
    .openAddModal prefill
  else if "delete".toList <+: pyLower text then
    let parts := pySplitNone 2 text
    if parts.length < 2 then .deleteUsage .ephemeral
    else
      let term := parts.getD 1 []
      let rows := get_acronym_ids_and_expansions term s
      if rows = [] then .deleteNotFound (pyUpper term) .ephemeral
      else .deleteSelectList term rows .ephemeral
  else if "edit".toList <+: pyLower text then
    let parts := pySplitNone 2 text
    if parts.length < 2 then .editUsage .ephemeral
    else
      let term := parts.getD 1 []
      let rows := get_acronym_ids_and_expansions term s
      if rows = [] then .editNotFound (pyUpper term) .ephemeral
      else .editSelectList term rows .ephemeral
  else
    let expansions := get_acronyms text s
    .lookupReply (format_defs text expansions)
      (if expansions = [] then .ephemeral else .inChannel)

/-! ### Character-level lemmas -/

theorem char_toNat_ofNat (n : Nat) (h : n.isValidChar) : (Char.ofNat n).toNat = n := by
  simp [Char.ofNat, h, Char.ofNatAux, Char.toNat, UInt32.toNat]

theorem char_eq_iff_toNat (a b : Char) : a = b ↔ a.toNat = b.toNat := by
  constructor
  · intro h; rw [h]
  · intro h; exact Char.ext (UInt32.ext h)

theorem isPySpace_iff (c : Char) : isPySpace c = true ↔
    (c.toNat = 32 ∨ c.toNat = 9 ∨ c.toNat = 10 ∨ c.toNat = 13 ∨ c.toNat = 11 ∨ c.toNat = 12) := by
  simp [isPySpace, beq_iff_eq, char_eq_iff_toNat]
  omega

theorem upChar_toNat_of (c : Char) (h : 97 ≤ c.toNat ∧ c.toNat ≤ 122) :
    (upChar c).toNat = c.toNat - 32 := by
  have hv : (c.toNat - 32).isValidChar := Or.inl (by omega)
  simp [upChar, h, char_toNat_ofNat _ hv]

theorem upChar_eq_self_of (c : Char) (h : ¬ (97 ≤ c.toNat ∧ c.toNat ≤ 122)) :
    upChar c = c := by
  simp [upChar, h]

theorem isPySpace_upChar (c : Char) : isPySpace (upChar c) = isPySpace c := by
  by_cases h : 97 ≤ c.toNat ∧ c.toNat ≤ 122
  · have h1 := upChar_toNat_of c h
    have ha := isPySpace_iff (upChar c)
    have hb := isPySpace_iff c
    cases hx : isPySpace (upChar c) <;> cases hy : isPySpace c <;> simp_all <;> omega
  · rw [upChar_eq_self_of c h]

theorem upChar_upChar (c : Char) : upChar (upChar c) = upChar c := by
  by_cases h : 97 ≤ c.toNat ∧ c.toNat ≤ 122
  · have h1 := upChar_toNat_of c h
    have h2 : ¬ (97 ≤ (upChar c).toNat ∧ (upChar c).toNat ≤ 122) := by omega
    exact upChar_eq_self_of _ h2
  · rw [upChar_eq_self_of c h, upChar_eq_self_of c h]

/-! ### Strip and normalization lemmas -/

theorem dropWhile_dropWhile_self (p : Char → Bool) (l : List Char) :
    (l.dropWhile p).dropWhile p = l.dropWhile p := by
  induction l with
  | nil => rfl
  | cons c cs ih =>
      by_cases h : p c
      · simp [List.dropWhile_cons, h, ih]
      · simp [List.dropWhile_cons, h]

theorem dropWhile_head_false (p : Char → Bool) (l : List Char) (a : Char) (t : List Char)
    (h : l.dropWhile p = a :: t) : p a = false := by
  induction l with
  | nil => simp at h
  | cons c cs ih =>
      by_cases hc : p c
      · rw [List.dropWhile_cons, if_pos hc] at h
        exact ih h
      · rw [List.dropWhile_cons, if_neg hc] at h
        cases h
        exact Bool.not_eq_true _ ▸ (by simpa using hc)

theorem pyStrip_prefix_dropWhile (s : List Char) :
    pyStrip s <+: s.dropWhile isPySpace := by
  unfold pyStrip
  have h := List.dropWhile_suffix (l := (s.dropWhile isPySpace).reverse) isPySpace
  have := List.reverse_prefix.mpr h
  simpa using this

theorem dropWhile_pyStrip (s : List Char) :
    (pyStrip s).dropWhile isPySpace = pyStrip s := by
  cases hv : pyStrip s with
  | nil => rfl
  | cons a t =>
      have hpre : (a :: t) <+: s.dropWhile isPySpace := hv ▸ pyStrip_prefix_dropWhile s
      obtain ⟨r, hr⟩ := hpre
      have ha : isPySpace a = false := by
        apply dropWhile_head_false isPySpace s a (t ++ r)
        rw [← hr]
        rfl
      simp [List.dropWhile_cons, ha]

theorem pyStrip_idem (s : List Char) : pyStrip (pyStrip s) = pyStrip s := by
  have h2 : (pyStrip s).reverse.dropWhile isPySpace = (pyStrip s).reverse := by
    have hrev : (pyStrip s).reverse = (s.dropWhile isPySpace).reverse.dropWhile isPySpace := by
      unfold pyStrip
      rw [List.reverse_reverse]
    rw [hrev, dropWhile_dropWhile_self]
  calc pyStrip (pyStrip s)
      = (((pyStrip s).dropWhile isPySpace).reverse.dropWhile isPySpace).reverse := rfl
    _ = ((pyStrip s).reverse.dropWhile isPySpace).reverse := by rw [dropWhile_pyStrip]
    _ = (pyStrip s).reverse.reverse := by rw [h2]
    _ = pyStrip s := List.reverse_reverse _

theorem pyStrip_map (g : Char → Char) (hg : ∀ c, isPySpace (g c) = isPySpace c)
    (s : List Char) : pyStrip (s.map g) = (pyStrip s).map g := by
  have hpred : (isPySpace ∘ g) = isPySpace := funext hg
  unfold pyStrip
  rw [List.dropWhile_map, hpred, ← List.map_reverse, List.dropWhile_map, hpred,
    ← List.map_reverse]

theorem pyStrip_pyUpper (s : List Char) : pyStrip (pyUpper s) = pyUpper (pyStrip s) :=
  pyStrip_map upChar isPySpace_upChar s

theorem pyUpper_pyUpper (s : List Char) : pyUpper (pyUpper s) = pyUpper s := by
  unfold pyUpper
  rw [List.map_map]
  exact List.map_congr_left (fun a _ => upChar_upChar a)

theorem normTerm_idem (s : List Char) : normTerm (normTerm s) = normTerm s := by
  unfold normTerm
  rw [pyStrip_pyUpper, pyStrip_idem, pyUpper_pyUpper]

theorem normTerm_eq_nil_iff (s : List Char) : normTerm s = [] ↔ pyStrip s = [] := by
  unfold normTerm pyUpper
  exact List.map_eq_nil_iff

theorem pyStrip_ne_nil_of_normTerm (s : List Char) (h : normTerm s ≠ []) :
    pyStrip s ≠ [] := fun hc => h ((normTerm_eq_nil_iff s).mpr hc)

/-! ### Decimal digit lemmas -/

theorem digitChar_toNat (d : Nat) (h : d < 10) : (digitChar d).toNat = 48 + d :=
  char_toNat_ofNat _ (Or.inl (by omega))

theorem digitChar_ne_pipe (d : Nat) (h : d < 10) : digitChar d ≠ '|' := by
  intro hc
  have h1 := (char_eq_iff_toNat _ _).mp hc
  rw [digitChar_toNat d h] at h1
  have h2 : ('|').toNat = 124 := by decide
  omega

theorem mem_natToCharsAux_ne_pipe (fuel : Nat) :
    ∀ n, n < fuel → ∀ c ∈ natToCharsAux fuel n, c ≠ '|' := by
  induction fuel with
  | zero => intro n hn; omega
  | succ fuel ih =>
      intro n hn c hc
      simp only [natToCharsAux] at hc
      by_cases h : n < 10
      · rw [if_pos h] at hc
        simp at hc
        exact hc ▸ digitChar_ne_pipe n h
      · rw [if_neg h] at hc
        rcases List.mem_append.mp hc with hmem | hmem
        · have hlt : n / 10 < fuel := by
            have := Nat.div_lt_self (n := n) (by omega) (by omega : 1 < 10)
            omega
          exact ih (n / 10) hlt c hmem
        · simp at hmem
          exact hmem ▸ digitChar_ne_pipe (n % 10) (Nat.mod_lt _ (by omega))

theorem mem_natToChars_ne_pipe (n : Nat) : ∀ c ∈ natToChars n, c ≠ '|' :=
  mem_natToCharsAux_ne_pipe (n + 1) n (Nat.lt_succ_self n)

theorem charsToNat_natToCharsAux (fuel : Nat) :
    ∀ n, n < fuel → charsToNat (natToCharsAux fuel n) = n := by
  induction fuel with
  | zero => intro n hn; omega
  | succ fuel ih =>
      intro n hn
      simp only [natToCharsAux]
      by_cases h : n < 10
      · rw [if_pos h]
        simp [charsToNat, digitChar_toNat n h]
      · rw [if_neg h]
        unfold charsToNat
        rw [List.foldl_append]
        have hlt : n / 10 < fuel := by
          have := Nat.div_lt_self (n := n) (by omega) (by omega : 1 < 10)
          omega
        have hrec := ih (n / 10) hlt
        unfold charsToNat at hrec
        rw [hrec]
        simp [digitChar_toNat (n % 10) (Nat.mod_lt _ (by omega))]
        omega

theorem charsToNat_natToChars (n : Nat) : charsToNat (natToChars n) = n :=
  charsToNat_natToCharsAux (n + 1) n (Nat.lt_succ_self n)

theorem splitPipe1_append (l r : List Char) (h : ∀ c ∈ l, c ≠ '|') :
    splitPipe1 (l ++ '|' :: r) = some (l, r) := by
  induction l with
  | nil => simp [splitPipe1]
  | cons c cs ih =>
      have hc : c ≠ '|' := h c (List.mem_cons_self c cs)
      rw [List.cons_append]
      rw [splitPipe1, if_neg hc, ih (fun d hd => h d (List.mem_cons_of_mem c hd))]
      rfl

/-! ### Concrete store used by witnesses -/

/-- A small concrete store state used to instantiate the claim theorems. -/
def demoStore : Store :=
  ⟨[⟨1, "ATO".toList, "Authority to Operate".toList, 0⟩,
    ⟨2, "ATO".toList, "Authority to Operate 2".toList, 1⟩,
    ⟨3, "X".toList, "Y".toList, 2⟩], 4⟩

theorem demoStore_wf : demoStore.wf := by
  refine ⟨?_, ?_, ?_⟩
  · simp [demoStore, List.pairwise_cons]
  · intro r hr
    simp [demoStore] at hr
    rcases hr with h | h | h <;> subst h <;> decide
  · intro r hr
    simp [demoStore] at hr
    rcases hr with h | h | h <;> subst h <;> refine ⟨by decide, by decide, by decide, by decide⟩

theorem emptyStore_wf : Store.wf ⟨[], 1⟩ := by
  refine ⟨List.Pairwise.nil, ?_, ?_⟩ <;> intro r hr <;> simp at hr

/-! ### Claim theorems -/

/-- C1: `insert(term, expansion)` normalizes the term to uppercase-trimmed and
the expansion to trimmed; it is a silent no-op (store unchanged, and being a
total function it raises nothing) when either field is empty after trimming;
otherwise it appends exactly one new record carrying the normalized fields and
a fresh id distinct from every existing row's id. -/
theorem add_acronym_blank_noop_and_fresh_insert (t e : List Char) (now : Nat)
    (s : Store) (hwf : s.wf) :
    ((pyStrip t = [] ∨ pyStrip e = []) → add_acronym t e now s = s) ∧
    (pyStrip t ≠ [] → pyStrip e ≠ [] →
      (add_acronym t e now s).rows =
        s.rows ++ [⟨s.nextId, normTerm t, pyStrip e, now⟩] ∧
      ∀ r ∈ s.rows, r.id ≠ s.nextId) := by
  constructor
  · intro hb
    have hcond : normTerm t = [] ∨ pyStrip e = [] := by
      rcases hb with h | h
      · exact Or.inl ((normTerm_eq_nil_iff t).mpr h)
      · exact Or.inr h
    simp [add_acronym, hcond]
  · intro ht he
    have hcond : ¬ (normTerm t = [] ∨ pyStrip e = []) := by
      push_neg
      exact ⟨fun hc => ht ((normTerm_eq_nil_iff t).mp hc), he⟩
    refine ⟨by simp [add_acronym, hcond], ?_⟩
    intro r hr
    exact Nat.ne_of_lt (hwf.2.1 r hr)

theorem add_acronym_blank_noop_and_fresh_insert_witness :
    add_acronym ("  ".toList) ("x".toList) 0 ⟨[], 1⟩ = ⟨[], 1⟩ ∧
    (add_acronym ("ato".toList) (" Authority to Operate ".toList) 7 ⟨[], 1⟩).rows =
      [⟨1, "ATO".toList, "Authority to Operate".toList, 7⟩] := by
  constructor
  · exact (add_acronym_blank_noop_and_fresh_insert ("  ".toList) ("x".toList) 0
      ⟨[], 1⟩ emptyStore_wf).1 (Or.inl (by decide))
  · have h := ((add_acronym_blank_noop_and_fresh_insert ("ato".toList)
      (" Authority to Operate ".toList) 7 ⟨[], 1⟩ emptyStore_wf).2
      (by decide) (by decide)).1
    rw [h]
    decide

/-- C2: for every term string, `lookup(T)` returns the same sequence as
`lookup(normalize(T))` with normalize = trim then uppercase, and an expansion
is returned exactly when some stored record's term equals the normalized query
(case-insensitive exact match only). -/
theorem get_acronyms_normalizes_query (t : List Char) (s : Store) :
    get_acronyms t s = get_acronyms (normTerm t) s ∧
    (∀ e, e ∈ get_acronyms t s ↔
      ∃ r ∈ s.rows, r.term = normTerm t ∧ r.expansion = e) := by
  constructor
  · unfold get_acronyms
    rw [normTerm_idem]
  · intro e
    unfold get_acronyms
    simp only [List.mem_map, List.mem_filter, decide_eq_true_eq]
    constructor
    · rintro ⟨r, ⟨hm, htm⟩, he⟩
      exact ⟨r, hm, htm, he⟩
    · rintro ⟨r, hm, htm, he⟩
      exact ⟨r, ⟨hm, htm⟩, he⟩

theorem get_acronyms_normalizes_query_witness :
    get_acronyms (" ato".toList) demoStore = get_acronyms ("ATO".toList) demoStore := by
  have h := (get_acronyms_normalizes_query (" ato".toList) demoStore).1
  have hn : normTerm (" ato".toList) = "ATO".toList := by decide
  rw [hn] at h
  exact h

/-- C5: `delete(id)` keeps exactly the rows whose id differs, is idempotent
(the second delete is a no-op), and afterwards `lookup_with_ids` never
returns that id for any term. -/
theorem delete_acronym_by_id_removes_only_that_id (aid : Nat) (s : Store) :
    (∀ r, r ∈ (delete_acronym_by_id aid s).rows ↔ r ∈ s.rows ∧ r.id ≠ aid) ∧
    delete_acronym_by_id aid (delete_acronym_by_id aid s) =
      delete_acronym_by_id aid s ∧
    (∀ term p, p ∈ get_acronym_ids_and_expansions term (delete_acronym_by_id aid s) →
      p.1 ≠ aid) := by
  refine ⟨?_, ?_, ?_⟩
  · intro r
    simp [delete_acronym_by_id, List.mem_filter]
  · simp only [delete_acronym_by_id]
    congr 1
    rw [List.filter_filter]
    apply List.filter_congr
    intro a _
    exact Bool.and_self _
  · intro term p hp
    simp only [get_acronym_ids_and_expansions, delete_acronym_by_id, List.mem_map] at hp
    obtain ⟨r, hr, hpe⟩ := hp
    rw [List.mem_filter] at hr
    obtain ⟨hr1, _⟩ := hr
    rw [List.mem_filter] at hr1
    have h2 : ¬ r.id = aid := by simpa using hr1.2
    intro hc
    apply h2
    rw [← hpe] at hc
    exact hc

theorem delete_acronym_by_id_removes_only_that_id_witness :
    (⟨2, "ATO".toList, "Authority to Operate 2".toList, 1⟩ : AcronymRecord) ∉
      (delete_acronym_by_id 2 demoStore).rows ∧
    delete_acronym_by_id 2 (delete_acronym_by_id 2 demoStore) =
      delete_acronym_by_id 2 demoStore := by
  constructor
  · intro hmem
    have h := ((delete_acronym_by_id_removes_only_that_id 2 demoStore).1 _).mp hmem
    exact h.2 rfl
  · exact (delete_acronym_by_id_removes_only_that_id 2 demoStore).2.1

/-- C10: encoding a record id and a term as the opaque token `id|term` and
splitting at the first pipe recovers the decimal id digits and the exact
original term — even when the term itself contains the delimiter — because a
decimal rendering never contains a pipe; parsing the digits returns the id. -/
theorem opaque_token_roundtrip (aid : Nat) (term : List Char) :
    splitPipe1 (encodeToken aid term) = some (natToChars aid, term) ∧
    charsToNat (natToChars aid) = aid ∧
    ('|') ∉ natToChars aid := by
  refine ⟨?_, charsToNat_natToChars aid, ?_⟩
  · exact splitPipe1_append _ _ (mem_natToChars_ne_pipe aid)
  · intro hmem
    exact mem_natToChars_ne_pipe aid '|' hmem rfl

theorem opaque_token_roundtrip_witness :
    splitPipe1 (encodeToken 12 ("A|B".toList)) = some ("12".toList, "A|B".toList) := by
  have h := (opaque_token_roundtrip 12 ("A|B".toList)).1
  have hn : natToChars 12 = "12".toList := by decide
  rw [hn] at h
  exact h

/-- How one successful insert changes a later lookup: the new expansion is
appended exactly when the inserted term normalizes to the queried term. -/
theorem get_acronyms_add (t e tq : List Char) (now : Nat) (s : Store)
    (ht : normTerm t ≠ []) (he : pyStrip e ≠ []) :
    get_acronyms tq (add_acronym t e now s) =
      get_acronyms tq s ++
        (if normTerm t = normTerm tq then [pyStrip e] else []) := by
  have hcond : ¬ (normTerm t = [] ∨ pyStrip e = []) := by
    push_neg
    exact ⟨ht, he⟩
  simp only [add_acronym, get_acronyms]
  rw [if_neg hcond, List.filter_append, List.map_append]
  congr 1
  by_cases hEq : normTerm t = normTerm tq
  · rw [if_pos hEq]
    simp [hEq]
  · rw [if_neg hEq]
    simp [hEq]

/-- C3: after inserting a non-blank term and expansion, looking the term up
(in any case variant) yields the trimmed expansion; two inserts under the
same normalized term append both expansions in insertion order, giving
exactly a two-element sequence when the store had no match before; and the
concrete scenario insert("ato", " Authority to Operate ") then lookup("ATO")
returns ["Authority to Operate"]. -/
theorem insert_lookup_roundtrip (t1 t2 tq e1 e2 : List Char) (n1 n2 : Nat) (s : Store)
    (ht1 : normTerm t1 = normTerm tq) (ht2 : normTerm t2 = normTerm tq)
    (htn : normTerm tq ≠ []) (he1 : pyStrip e1 ≠ []) (he2 : pyStrip e2 ≠ []) :
    get_acronyms tq (add_acronym t2 e2 n2 (add_acronym t1 e1 n1 s)) =
      get_acronyms tq s ++ [pyStrip e1, pyStrip e2] ∧
    pyStrip e1 ∈ get_acronyms tq (add_acronym t1 e1 n1 s) ∧
    (get_acronyms tq s = [] →
      get_acronyms tq (add_acronym t2 e2 n2 (add_acronym t1 e1 n1 s)) =
        [pyStrip e1, pyStrip e2]) ∧
    get_acronyms ("ATO".toList)
        (add_acronym ("ato".toList) (" Authority to Operate ".toList) n1 ⟨[], 1⟩) =
      ["Authority to Operate".toList] := by
  have ht1n : normTerm t1 ≠ [] := by rw [ht1]; exact htn
  have ht2n : normTerm t2 ≠ [] := by rw [ht2]; exact htn
  have hmain : get_acronyms tq (add_acronym t2 e2 n2 (add_acronym t1 e1 n1 s)) =
      get_acronyms tq s ++ [pyStrip e1, pyStrip e2] := by
    rw [get_acronyms_add t2 e2 tq n2 _ ht2n he2, if_pos ht2,
      get_acronyms_add t1 e1 tq n1 s ht1n he1, if_pos ht1, List.append_assoc]
    rfl
  refine ⟨hmain, ?_, ?_, ?_⟩
  · rw [get_acronyms_add t1 e1 tq n1 s ht1n he1, if_pos ht1]
    simp
  · intro hq
    rw [hmain, hq]
    rfl
  · have hc := get_acronyms_add ("ato".toList) (" Authority to Operate ".toList)
      ("ATO".toList) n1 ⟨[], 1⟩ (by decide) (by decide)
    rw [hc, if_pos (by decide)]
    decide

theorem insert_lookup_roundtrip_witness :
    get_acronyms ("ATO".toList)
        (add_acronym ("AtO".toList) ("b".toList) 1
          (add_acronym ("ato".toList) (" a ".toList) 0 ⟨[], 1⟩)) =
      ["a".toList, "b".toList] := by
  have h := (insert_lookup_roundtrip ("ato".toList) ("AtO".toList) ("ATO".toList)
      (" a ".toList) ("b".toList) 0 1 ⟨[], 1⟩
      (by decide) (by decide) (by decide) (by decide) (by decide)).2.2.1 (by decide)
  rw [show pyStrip (" a ".toList) = "a".toList from by decide,
    show pyStrip ("b".toList) = "b".toList from by decide] at h
  exact h

/-- After the edit flow's UPDATE, the first row found under the edited id
carries the new expansion, provided some row has that id. -/
theorem find_overwritten (aid : Nat) (ne : List Char) (l : List AcronymRecord)
    (h : ∃ r ∈ l, r.id = aid) :
    ((l.map (fun r => if r.id = aid then { r with expansion := ne } else r)).find?
        (fun r => r.id = aid)).map (fun r => r.expansion) = some ne := by
  induction l with
  | nil => simp at h
  | cons r t ih =>
      by_cases hr : r.id = aid
      · simp only [List.map_cons, if_pos hr]
        rw [List.find?_cons]
        simp [hr]
      · simp only [List.map_cons, if_neg hr]
        rw [List.find?_cons]
        have hd : (decide (r.id = aid)) = false := by simp [hr]
        simp only [hd]
        apply ih
        rcases h with ⟨r1, hr1, hid⟩
        rcases List.mem_cons.mp hr1 with he | hm
        · exact absurd (he ▸ hid) hr
        · exact ⟨r1, hm, hid⟩

/-- The edit flow's UPDATE never changes a row's id, term or timestamp. -/
theorem update_preserves_id_term_time (aid : Nat) (ne : List Char) (s : Store) :
    (update_expansion aid ne s).rows.map (fun r => (r.id, r.term, r.created_at)) =
      s.rows.map (fun r => (r.id, r.term, r.created_at)) := by
  by_cases hb : pyStrip ne = []
  · simp [update_expansion, hb]
  · simp only [update_expansion, if_neg hb]
    rw [List.map_map]
    apply List.map_congr_left
    intro r _
    by_cases hr : r.id = aid <;> simp [hr]

/-- C4: `update_expansion(id, new)` is a silent no-op when the replacement is
blank after trimming; when non-blank and the id exists, a subsequent
`fetch_expansion(id)` returns the trimmed replacement; no record's id, term or
timestamp ever changes; records with other ids survive untouched; and updating
a non-existent id leaves the store unchanged. -/
theorem update_expansion_semantics (aid : Nat) (ne : List Char) (s : Store) :
    (pyStrip ne = [] → update_expansion aid ne s = s) ∧
    (pyStrip ne ≠ [] → (∃ r ∈ s.rows, r.id = aid) →
      fetch_expansion aid (update_expansion aid ne s) = some (pyStrip ne)) ∧
    ((update_expansion aid ne s).rows.map (fun r => (r.id, r.term, r.created_at)) =
      s.rows.map (fun r => (r.id, r.term, r.created_at))) ∧
    (∀ r ∈ s.rows, r.id ≠ aid → r ∈ (update_expansion aid ne s).rows) ∧
    ((∀ r ∈ s.rows, r.id ≠ aid) → update_expansion aid ne s = s) := by
  refine ⟨?_, ?_, ?_, ?_, ?_⟩
  · intro hb
    simp [update_expansion, hb]
  · intro hne hex
    simp only [update_expansion, if_neg hne]
    unfold fetch_expansion
    exact find_overwritten aid (pyStrip ne) s.rows hex
  · exact update_preserves_id_term_time aid ne s
  · intro r hr hne2
    by_cases hb : pyStrip ne = []
    · simp [update_expansion, hb, hr]
    · simp only [update_expansion, if_neg hb]
      exact List.mem_map.mpr ⟨r, hr, by simp [hne2]⟩
  · intro hall
    by_cases hb : pyStrip ne = []
    · simp [update_expansion, hb]
    · simp only [update_expansion, if_neg hb]
      have hmap : s.rows.map
          (fun r => if r.id = aid then { r with expansion := pyStrip ne } else r) =
          s.rows.map id :=
        List.map_congr_left (fun r hr => by simp [hall r hr])
      rw [hmap, List.map_id]

theorem update_expansion_semantics_witness :
    update_expansion 1 ("  ".toList) demoStore = demoStore ∧
    fetch_expansion 1 (update_expansion 1 (" New ".toList) demoStore) =
      some ("New".toList) ∧
    update_expansion 99 ("z".toList) demoStore = demoStore := by
  refine ⟨?_, ?_, ?_⟩
  · exact (update_expansion_semantics 1 ("  ".toList) demoStore).1 (by decide)
  · have h := (update_expansion_semantics 1 (" New ".toList) demoStore).2.1
      (by decide)
      ⟨⟨1, "ATO".toList, "Authority to Operate".toList, 0⟩, by simp [demoStore], rfl⟩
    rw [show pyStrip (" New ".toList) = "New".toList from by decide] at h
    exact h
  · apply (update_expansion_semantics 99 ("z".toList) demoStore).2.2.2.2
    intro r hr
    simp [demoStore] at hr
    rcases hr with h | h | h <;> subst h <;> decide

/-- Inserting preserves the store invariants. -/
theorem wf_add_acronym (t e : List Char) (now : Nat) (s : Store) (h : s.wf) :
    (add_acronym t e now s).wf := by
  by_cases hcond : normTerm t = [] ∨ pyStrip e = []
  · simpa [add_acronym, hcond] using h
  · obtain ⟨hp, hid, hinv⟩ := h
    simp only [add_acronym, if_neg hcond]
    refine ⟨?_, ?_, ?_⟩
    · rw [List.pairwise_append]
      refine ⟨hp, List.pairwise_singleton _ _, ?_⟩
      intro a ha b hb
      simp at hb
      rw [hb]
      exact hid a ha
    · intro r hr
      rcases List.mem_append.mp hr with hm | hm
      · exact Nat.lt_succ_of_lt (hid r hm)
      · simp at hm
        rw [hm]
        exact Nat.lt_succ_self _
    · intro r hr
      rcases List.mem_append.mp hr with hm | hm
      · exact hinv r hm
      · simp at hm
        subst hm
        push_neg at hcond
        exact ⟨(normTerm_idem t).symm, hcond.1, (pyStrip_idem e).symm, hcond.2⟩

/-- The edit flow's UPDATE preserves the store invariants. -/
theorem wf_update_expansion (aid : Nat) (ne : List Char) (s : Store) (h : s.wf) :
    (update_expansion aid ne s).wf := by
  by_cases hb : pyStrip ne = []
  · simpa [update_expansion, hb] using h
  · obtain ⟨hp, hid, hinv⟩ := h
    have hidf : ∀ r : AcronymRecord,
        (if r.id = aid then { r with expansion := pyStrip ne } else r).id = r.id := by
      intro r
      by_cases hr : r.id = aid <;> simp [hr]
    simp only [update_expansion, if_neg hb]
    refine ⟨?_, ?_, ?_⟩
    · rw [List.pairwise_map]
      exact hp.imp (fun hab => by rw [hidf, hidf]; exact hab)
    · intro r hr
      rw [List.mem_map] at hr
      obtain ⟨a, ha, rfl⟩ := hr
      rw [hidf]
      exact hid a ha
    · intro r hr
      rw [List.mem_map] at hr
      obtain ⟨a, ha, rfl⟩ := hr
      by_cases hra : a.id = aid
      · simp only [if_pos hra]
        have hrec := hinv a ha
        exact ⟨hrec.1, hrec.2.1, (pyStrip_idem ne).symm, hb⟩
      · simp only [if_neg hra]
        exact hinv a ha

/-- Deleting preserves the store invariants. -/
theorem wf_delete_acronym_by_id (aid : Nat) (s : Store) (h : s.wf) :
    (delete_acronym_by_id aid s).wf := by
  obtain ⟨hp, hid, hinv⟩ := h
  refine ⟨List.Pairwise.filter _ hp, ?_, ?_⟩ <;> intro r hr
  · exact hid r (List.mem_filter.mp hr).1
  · exact hinv r (List.mem_filter.mp hr).1

/-- In an id-sorted row list, deleting by id removes exactly the one matching
row when it exists and nothing otherwise. -/
theorem delete_removes_at_most_one (aid : Nat) (l : List AcronymRecord)
    (hp : l.Pairwise (fun a b => a.id < b.id)) :
    (∃ r ∈ l, r.id = aid ∧
      (l.filter (fun r => ¬ r.id = aid)).length + 1 = l.length) ∨
    ((∀ r ∈ l, r.id ≠ aid) ∧ l.filter (fun r => ¬ r.id = aid) = l) := by
  induction l with
  | nil => exact Or.inr ⟨by simp, rfl⟩
  | cons r t ih =>
      rw [List.pairwise_cons] at hp
      by_cases hr : r.id = aid
      · left
        refine ⟨r, List.mem_cons_self r t, hr, ?_⟩
        have htself : t.filter (fun x => ¬ x.id = aid) = t := by
          apply List.filter_eq_self.mpr
          intro a ha
          have hlt : aid < a.id := hr ▸ hp.1 a ha
          simp only [decide_eq_true_eq]
          omega
        have hdec : (decide (¬ r.id = aid)) = false := by simp [hr]
        rw [List.filter_cons, hdec]
        simp only [Bool.false_eq_true, if_false]
        rw [htself]
        simp
      · have hdec : (decide (¬ r.id = aid)) = true := by simp [hr]
        rcases ih hp.2 with ⟨r1, hm, hid1, hlen⟩ | ⟨hall, heq⟩
        · left
          refine ⟨r1, List.mem_cons_of_mem r hm, hid1, ?_⟩
          rw [List.filter_cons, hdec, if_pos rfl]
          simp only [List.length_cons]
          omega
        · right
          constructor
          · intro a ha
            rcases List.mem_cons.mp ha with h1 | h1
            · exact h1 ▸ hr
            · exact hall a h1
          · rw [List.filter_cons, hdec, if_pos rfl, heq]

/-- C9: every operation preserves the store invariants (terms stored
uppercase-trimmed and non-empty, expansions trimmed and non-empty, ids
strictly increasing and below the id counter); an insert leaves every
existing row in place, an edit changes no row's id, term or timestamp, and a
delete removes exactly the single row with the given id when it exists and
nothing otherwise. -/
theorem store_invariants_preserved (s : Store) (hwf : s.wf) (t e ne : List Char)
    (now aid : Nat) :
    (add_acronym t e now s).wf ∧
    (update_expansion aid ne s).wf ∧
    (delete_acronym_by_id aid s).wf ∧
    (∀ r ∈ s.rows, r ∈ (add_acronym t e now s).rows) ∧
    ((update_expansion aid ne s).rows.map (fun r => (r.id, r.term, r.created_at)) =
      s.rows.map (fun r => (r.id, r.term, r.created_at))) ∧
    ((∃ r ∈ s.rows, r.id = aid ∧
        (delete_acronym_by_id aid s).rows.length + 1 = s.rows.length) ∨
      ((∀ r ∈ s.rows, r.id ≠ aid) ∧
        (delete_acronym_by_id aid s).rows = s.rows)) := by
  refine ⟨wf_add_acronym t e now s hwf, wf_update_expansion aid ne s hwf,
    wf_delete_acronym_by_id aid s hwf, ?_, ?_, ?_⟩
  · intro r hr
    by_cases hcond : normTerm t = [] ∨ pyStrip e = []
    · simpa [add_acronym, hcond] using hr
    · simp only [add_acronym, if_neg hcond]
      exact List.mem_append_left _ hr
  · exact update_preserves_id_term_time aid ne s
  · exact delete_removes_at_most_one aid s.rows hwf.1

theorem store_invariants_preserved_witness :
    (add_acronym ("nasa".toList) (" space ".toList) 9 demoStore).wf ∧
    (delete_acronym_by_id 2 demoStore).rows.length + 1 = demoStore.rows.length := by
  constructor
  · exact (store_invariants_preserved demoStore demoStore_wf ("nasa".toList)
      (" space ".toList) [] 9 0).1
  · have h := (store_invariants_preserved demoStore demoStore_wf [] [] [] 0 2).2.2.2.2.2
    rcases h with ⟨r, _, _, hlen⟩ | ⟨hall, _⟩
    · exact hlen
    · exact absurd rfl (hall ⟨2, "ATO".toList, "Authority to Operate 2".toList, 1⟩
        (by simp [demoStore]))

theorem numberedLines_length (i : Nat) (es : List (List Char)) :
    (numberedLines i es).length = es.length := by
  induction es generalizing i with
  | nil => rfl
  | cons e t ih => simp [numberedLines, ih]

theorem numberedLines_getD (i k : Nat) (es : List (List Char)) (hk : k < es.length) :
    (numberedLines i es).getD k [] =
      natToChars (i + k) ++ ". ".toList ++ es.getD k [] := by
  induction es generalizing i k with
  | nil => simp at hk
  | cons e t ih =>
      cases k with
      | zero => simp [numberedLines]
      | succ k =>
          simp only [numberedLines, List.getD_cons_succ]
          rw [ih (i + 1) k (by simpa using hk)]
          have harg : i + 1 + k = i + (k + 1) := by omega
          rw [harg]

/-- C6: `format_lookup` is a function of its arguments (hence deterministic);
on an empty expansion list it returns the fixed "nothing found, try add"
message with the normalized (trimmed, uppercased) term spliced in — in
particular the normalized term occurs in the reply — and on a non-empty list
of length N it returns the header naming the normalized term and N joined
with one 1-based numbered line per expansion, in the order given. -/
theorem format_defs_characterization (term : List Char) (es : List (List Char)) :
    (format_defs term [] =
      "Nothing for *".toList ++ normTerm term ++
        "* yet. Try `/wtf add` to submit one.".toList ∧
      normTerm term <:+: format_defs term []) ∧
    (es ≠ [] →
      format_defs term es =
        joinLines (("*".toList ++ normTerm term ++ "* has ".toList ++
          natToChars es.length ++ " meaning(s):".toList) :: numberedLines 1 es) ∧
      (numberedLines 1 es).length = es.length ∧
      ∀ k, k < es.length →
        (numberedLines 1 es).getD k [] =
          natToChars (k + 1) ++ ". ".toList ++ es.getD k []) := by
  constructor
  · constructor
    · simp [format_defs]
    · refine ⟨"Nothing for *".toList,
        "* yet. Try `/wtf add` to submit one.".toList, ?_⟩
      simp [format_defs]
  · intro hne
    refine ⟨by simp [format_defs, hne], numberedLines_length 1 es, ?_⟩
    intro k hk
    rw [numberedLines_getD 1 k es hk, Nat.add_comm 1 k]

theorem format_defs_characterization_witness :
    format_defs ("zzz".toList) [] =
      "Nothing for *ZZZ* yet. Try `/wtf add` to submit one.".toList ∧
    (numberedLines 1 ["A".toList, "B".toList]).getD 1 [] = "2. B".toList := by
  constructor
  · have h := (format_defs_characterization ("zzz".toList) []).1.1
    rw [h]
    decide
  · have h := ((format_defs_characterization ("ato".toList)
      ["A".toList, "B".toList]).2 (by decide)).2.2 1 (by decide)
    rw [h]
    decide

/-! ### Router branch shapes -/

theorem handle_acronym_empty (raw : Option (List Char)) (s : Store)
    (h : pyStrip (raw.getD []) = []) :
    handle_acronym raw s = RouteAction.usage .ephemeral := by
  simp only [handle_acronym]
  rw [if_pos h]

theorem handle_acronym_add (raw : List Char) (s : Store)
    (h0 : pyStrip raw ≠ [])
    (h1 : "add".toList <+: pyLower (pyStrip raw)) :
    handle_acronym (some raw) s = RouteAction.openAddModal
      (if 1 < (pySplitNone 2 (pyStrip raw)).length then
        pyUpper ((pySplitNone 2 (pyStrip raw)).getD 1 []) else []) := by
  simp only [handle_acronym, Option.getD_some]
  rw [if_neg h0, if_pos h1]

theorem handle_acronym_delete (raw : List Char) (s : Store)
    (h0 : pyStrip raw ≠ [])
    (h1 : ¬ ("add".toList <+: pyLower (pyStrip raw)))
    (h2 : "delete".toList <+: pyLower (pyStrip raw)) :
    handle_acronym (some raw) s =
      (if (pySplitNone 2 (pyStrip raw)).length < 2 then RouteAction.deleteUsage .ephemeral
       else if get_acronym_ids_and_expansions
           ((pySplitNone 2 (pyStrip raw)).getD 1 []) s = [] then
         RouteAction.deleteNotFound
           (pyUpper ((pySplitNone 2 (pyStrip raw)).getD 1 [])) .ephemeral
       else RouteAction.deleteSelectList ((pySplitNone 2 (pyStrip raw)).getD 1 [])
         (get_acronym_ids_and_expansions ((pySplitNone 2 (pyStrip raw)).getD 1 []) s)
         .ephemeral) := by
  simp only [handle_acronym, Option.getD_some]
  rw [if_neg h0, if_neg h1, if_pos h2]

theorem handle_acronym_edit (raw : List Char) (s : Store)
    (h0 : pyStrip raw ≠ [])
    (h1 : ¬ ("add".toList <+: pyLower (pyStrip raw)))
    (h2 : ¬ ("delete".toList <+: pyLower (pyStrip raw)))
    (h3 : "edit".toList <+: pyLower (pyStrip raw)) :
    handle_acronym (some raw) s =
      (if (pySplitNone 2 (pyStrip raw)).length < 2 then RouteAction.editUsage .ephemeral
       else if get_acronym_ids_and_expansions
           ((pySplitNone 2 (pyStrip raw)).getD 1 []) s = [] then
         RouteAction.editNotFound
           (pyUpper ((pySplitNone 2 (pyStrip raw)).getD 1 [])) .ephemeral
       else RouteAction.editSelectList ((pySplitNone 2 (pyStrip raw)).getD 1 [])
         (get_acronym_ids_and_expansions ((pySplitNone 2 (pyStrip raw)).getD 1 []) s)
         .ephemeral) := by
  simp only [handle_acronym, Option.getD_some]
  rw [if_neg h0, if_neg h1, if_neg h2, if_pos h3]

theorem handle_acronym_lookup (raw : List Char) (s : Store)
    (h0 : pyStrip raw ≠ [])
    (h1 : ¬ ("add".toList <+: pyLower (pyStrip raw)))
    (h2 : ¬ ("delete".toList <+: pyLower (pyStrip raw)))
    (h3 : ¬ ("edit".toList <+: pyLower (pyStrip raw))) :
    handle_acronym (some raw) s =
      RouteAction.lookupReply (format_defs (pyStrip raw) (get_acronyms (pyStrip raw) s))
        (if get_acronyms (pyStrip raw) s = [] then .ephemeral else .inChannel) := by
  simp only [handle_acronym, Option.getD_some]
  rw [if_neg h0, if_neg h1, if_neg h2, if_neg h3]

/-- C7 counterexample: the command text "addendum" has first whitespace token
"addendum", which is not "add", yet the router opens the add dialog — the
code tests `text.lower().startswith("add")`, a prefix test on the whole text,
not first-token equality. -/
theorem router_add_first_token_counterexample :
    handle_acronym (some ("addendum".toList)) ⟨[], 1⟩ = RouteAction.openAddModal [] ∧
    (pySplitNone 2 (pyStrip ("addendum".toList))).getD 0 [] ≠ "add".toList := by
  constructor
  · decide
  · decide

/-- C7 (amended): the router dispatches to the add flow exactly when the
stripped command text is non-empty and its lowercased form starts with the
prefix "add" (first-token equality is not required); the pre-filled term is
the uppercased second whitespace token when one exists, otherwise empty; and
any non-empty text whose lowercased form starts with none of "add",
"delete", "edit" is treated in its entirety as the lookup term. -/
theorem router_dispatch_amended (raw : List Char) (s : Store) :
    (∀ p, handle_acronym (some raw) s = RouteAction.openAddModal p ↔
      (pyStrip raw ≠ [] ∧
        "add".toList <+: pyLower (pyStrip raw) ∧
        p = (if 1 < (pySplitNone 2 (pyStrip raw)).length then
          pyUpper ((pySplitNone 2 (pyStrip raw)).getD 1 []) else []))) ∧
    ((pyStrip raw ≠ [] ∧
      ¬ ("add".toList <+: pyLower (pyStrip raw)) ∧
      ¬ ("delete".toList <+: pyLower (pyStrip raw)) ∧
      ¬ ("edit".toList <+: pyLower (pyStrip raw))) →
      handle_acronym (some raw) s =
        RouteAction.lookupReply (format_defs (pyStrip raw) (get_acronyms (pyStrip raw) s))
          (if get_acronyms (pyStrip raw) s = [] then .ephemeral else .inChannel)) := by
  constructor
  · intro p
    by_cases h0 : pyStrip raw = []
    · rw [handle_acronym_empty (some raw) s h0]
      constructor
      · intro heq
        exact RouteAction.noConfusion heq
      · rintro ⟨hc, -, -⟩
        exact absurd h0 hc
    · by_cases h1 : "add".toList <+: pyLower (pyStrip raw)
      · rw [handle_acronym_add raw s h0 h1]
        constructor
        · intro heq
          injection heq with hpre
          exact ⟨h0, h1, hpre.symm⟩
        · rintro ⟨-, -, hp⟩
          rw [hp]
      · by_cases h2 : "delete".toList <+: pyLower (pyStrip raw)
        · rw [handle_acronym_delete raw s h0 h1 h2]
          constructor
          · intro heq
            split_ifs at heq
          · rintro ⟨-, hc, -⟩
            exact absurd hc h1
        · by_cases h3 : "edit".toList <+: pyLower (pyStrip raw)
          · rw [handle_acronym_edit raw s h0 h1 h2 h3]
            constructor
            · intro heq
              split_ifs at heq
            · rintro ⟨-, hc, -⟩
              exact absurd hc h1
          · rw [handle_acronym_lookup raw s h0 h1 h2 h3]
            constructor
            · intro heq
              exact RouteAction.noConfusion heq
            · rintro ⟨-, hc, -⟩
              exact absurd hc h1
  · rintro ⟨h0, h1, h2, h3⟩
    exact handle_acronym_lookup raw s h0 h1 h2 h3

theorem router_dispatch_amended_witness :
    handle_acronym (some ("Add NASA".toList)) ⟨[], 1⟩ =
      RouteAction.openAddModal ("NASA".toList) ∧
    handle_acronym (some ("wtf".toList)) demoStore =
      RouteAction.lookupReply (format_defs ("wtf".toList) []) .ephemeral := by
  constructor
  · exact ((router_dispatch_amended ("Add NASA".toList) ⟨[], 1⟩).1
      ("NASA".toList)).mpr ⟨by decide, by decide, by decide⟩
  · have h := (router_dispatch_amended ("wtf".toList) demoStore).2
      ⟨by decide, by decide, by decide, by decide⟩
    rw [h]
    decide

/-- C8: on the bare-lookup path the reply is ephemeral exactly when the
lookup comes back empty, and in-channel otherwise; blank command text always
yields the ephemeral usage reply regardless of the store contents (the store
is never consulted), as does an absent text field. -/
theorem lookup_reply_visibility (raw : List Char) (s : Store) :
    ((pyStrip raw ≠ [] ∧
      ¬ ("add".toList <+: pyLower (pyStrip raw)) ∧
      ¬ ("delete".toList <+: pyLower (pyStrip raw)) ∧
      ¬ ("edit".toList <+: pyLower (pyStrip raw))) →
      ∀ msg rt, handle_acronym (some raw) s = RouteAction.lookupReply msg rt →
        (rt = ResponseType.ephemeral ↔ get_acronyms (pyStrip raw) s = [])) ∧
    (pyStrip raw = [] →
      handle_acronym (some raw) s = RouteAction.usage .ephemeral ∧
      ∀ s2, handle_acronym (some raw) s2 = RouteAction.usage .ephemeral) ∧
    handle_acronym none s = RouteAction.usage .ephemeral := by
  refine ⟨?_, ?_, ?_⟩
  · rintro ⟨h0, h1, h2, h3⟩ msg rt heq
    rw [handle_acronym_lookup raw s h0 h1 h2 h3] at heq
    injection heq with hmsg hrt
    by_cases hexp : get_acronyms (pyStrip raw) s = []
    · rw [if_pos hexp] at hrt
      exact ⟨fun _ => hexp, fun _ => hrt.symm⟩
    · rw [if_neg hexp] at hrt
      constructor
      · intro h
        exact ResponseType.noConfusion (hrt.trans h)
      · intro h
        exact absurd h hexp
  · intro h0
    exact ⟨handle_acronym_empty (some raw) s h0,
      fun s2 => handle_acronym_empty (some raw) s2 h0⟩
  · exact handle_acronym_empty none s rfl

theorem lookup_reply_visibility_witness :
    (ResponseType.ephemeral = ResponseType.ephemeral ↔
      get_acronyms (pyStrip ("wtf".toList)) demoStore = []) ∧
    handle_acronym (some ("  ".toList)) demoStore = RouteAction.usage .ephemeral := by
  constructor
  · exact (lookup_reply_visibility ("wtf".toList) demoStore).1
      ⟨by decide, by decide, by decide, by decide⟩
      (format_defs (pyStrip ("wtf".toList))
        (get_acronyms (pyStrip ("wtf".toList)) demoStore))
      ResponseType.ephemeral (by decide)
  · exact ((lookup_reply_visibility ("  ".toList) demoStore).2.1 (by decide)).1

end AcronymBot
